import Mathlib

/-!
Verification of the go-cli repository core: command-path resolver
(`command.go`), tokenizer / REPL execution surface (`cli.go`), history
manager (`history.go`) and the redraw engine's cursor arithmetic
(`cli.go`).  Go maps are modelled as association lists with distinct
keys, Go's `nil` map / slice distinction is kept with `Option` where the
code branches on it, and the single `panic` in the resolver is modelled
by `Except.error`.
-/

set_option autoImplicit false

namespace GoCli

/-- A command-tree node, from `Command` in `command.go`: a description,
the declared argument names, whether a handler callback is attached
(`Handler != nil`), and the named children (`List CommandList`,
modelled as an association list). -/
inductive Command : Type where
  | mk : (description : String) → (arguments : List String) →
      (hasHandler : Bool) → (sub : List (String × Command)) → Command

def Command.description : Command → String
  | .mk d _ _ _ => d

def Command.arguments : Command → List String
  | .mk _ a _ _ => a

def Command.hasHandler : Command → Bool
  | .mk _ _ h _ => h

/-- The `List` field of a Go `Command` (its children). -/
def Command.sub : Command → List (String × Command)
  | .mk _ _ _ s => s

/-- Go `(*curList)[k]` on the association-list model of `CommandList`. -/
def lookup (curList : List (String × Command)) (k : String) : Option Command :=
  (curList.find? (fun q => q.1 == k)).map (fun q => q.2)

/-- Go `strings.TrimLeft(s, " ")`: drop all leading space characters. -/
def trimLeftSpaces (s : String) : String :=
  String.mk (s.data.dropWhile (fun c => c == ' '))

/-- Go `strings.HasPrefix(s, p)`, over the character lists. -/
def hasPrefixGo (p s : String) : Bool :=
  p.data.isPrefixOf s.data

/-- Go `strings.Join(elems, " ")`. -/
def joinSpace : List String → String
  | [] => ""
  | [t] => t
  | t :: ts => t ++ " " ++ joinSpace ts

/-- Go map insertion `m[k] = v`: overwrite an existing binding for `k`,
otherwise add the binding. -/
def mapInsert (l : List (String × Command)) (k : String) (v : Command) :
    List (String × Command) :=
  if l.any (fun q => q.1 == k) then
    l.map (fun q => if q.1 == k then (k, v) else q)
  else l ++ [(k, v)]

/-- The child-exposure loop of `resolvePath` (command.go:89-91):
`possibilities[TrimLeft(prefixStr+" "+name, " ")] = item` for every
child of the reached node. -/
def insertChildren (poss : List (String × Command)) (pfx : String)
    (children : List (String × Command)) : List (String × Command) :=
  children.foldl (fun acc q => mapInsert acc (trimLeftSpaces (pfx ++ " " ++ q.1)) q.2) poss

/-- Result of `resolvePath` (command.go:29): the Go named returns
`(possibilities CommandList, args []string, list bool)`.  `possibilities`
is `none` when the Go map is `nil` (the early return for empty input)
and `some` of the entry list otherwise. -/
structure ResolveResult where
  possibilities : Option (List (String × Command))
  args : List String
  list : Bool

/-- The tail of `resolvePath` (command.go:95-99): `args = path[argsIndex:]`
and the trailing `"?"` check that forces the listing flag. -/
def finish (path : List String) (argsIndex : Nat)
    (poss : List (String × Command)) (listFlag : Bool) : Except String ResolveResult :=
  let args := path.drop argsIndex
  Except.ok ⟨some poss, args, listFlag || (!args.isEmpty && decide (args.getLast? = some "?"))⟩

/-- The post-loop block of `resolvePath` (command.go:83-99): if the
current list is non-empty, panic when the reached command declares
arguments, expose the children when listing was forced or the reached
command has no handler, then run the `args`/trailing-`"?"` tail. -/
def afterLoop (path : List String) (argsIndex : Nat)
    (poss : List (String × Command)) (pfx : String)
    (curList : List (String × Command)) (curCmd : Option Command)
    (listFlag : Bool) : Except String ResolveResult :=
  if curList.isEmpty then finish path argsIndex poss listFlag
  else if (curCmd.map (fun c => !c.arguments.isEmpty)).getD false then
    Except.error "parent item cannot have arguments"
  else if listFlag || (curCmd.map (fun c => !c.hasHandler)).getD false then
    finish path argsIndex (insertChildren poss pfx curList) listFlag
  else finish path argsIndex poss listFlag

/-- The main loop of `resolvePath` (command.go:40-81).  `done` is the
already-scanned front of the path (so the Go loop index `i` is
`done.length`), `pending` the rest; `argsIndex`, `poss`, `pfx`,
`curList`, `curCmd` and `listFlag` mirror the Go mutable state.  The Go
`break` statements jump to `afterLoop`; the ambiguous-search branch
returns directly (command.go:75-79). -/
def resolveLoop (done pending : List String) (argsIndex : Nat)
    (poss : List (String × Command)) (pfx : String)
    (curList : List (String × Command)) (curCmd : Option Command)
    (listFlag : Bool) : Except String ResolveResult :=
  match pending with
  | [] => afterLoop done argsIndex poss pfx curList curCmd listFlag
  | tok :: rest =>
    if rest.isEmpty && tok == "?" then
      afterLoop (done ++ tok :: rest) argsIndex poss pfx curList curCmd true
    else if curList.isEmpty then
      afterLoop (done ++ tok :: rest) argsIndex poss pfx curList curCmd listFlag
    else
      match lookup curList tok with
      | some cmd =>
        let pfx' := joinSpace (done ++ [tok])
        resolveLoop (done ++ [tok]) rest (argsIndex + 1) [(pfx', cmd)] pfx'
          cmd.sub (some cmd) listFlag
      | none =>
        let poss' := (curList.filter (fun q => hasPrefixGo tok q.1)).map
          (fun q => (trimLeftSpaces (pfx ++ " " ++ q.1), q.2))
        match poss' with
        | [(name, item)] =>
          resolveLoop (done ++ [tok]) rest (argsIndex + 1) poss'
            (trimLeftSpaces (pfx ++ " " ++ name)) item.sub (some item) listFlag
        | _ =>
          Except.ok ⟨some poss', (done ++ tok :: rest).drop argsIndex, true⟩

/-- `CommandList.resolvePath` (command.go:29-100).  The guard is the Go
early return for `nil`/empty paths and the single empty token; it
returns the `nil` possibilities map, modelled as `none`. -/
def resolvePath (l : List (String × Command)) (path : List String) :
    Except String ResolveResult :=
  if path.isEmpty || (path.length == 1 && path.head? == some "") then
    Except.ok ⟨none, [], false⟩
  else resolveLoop [] path 0 [] "" l none false

/-- Pure descent mirror of the loop: the node reached when every level
of the walk matches uniquely (exact name, or a single prefix
candidate).  Returns `none` when a level is ambiguous or empty. -/
def descend (cur : Option Command) (curList : List (String × Command)) :
    List String → Option Command
  | [] => cur
  | tok :: rest =>
    match lookup curList tok with
    | some cmd => descend (some cmd) cmd.sub rest
    | none =>
      match curList.filter (fun q => hasPrefixGo tok q.1) with
      | [q] => descend (some q.2) q.2.sub rest
      | _ => none

/-! The tokenizer `parseArgs` (cli.go:115-159).  It scans each input
string separately with the quote/escape state carried across strings;
`newArgs` is the list under construction and the Go pointer `arg`
always aims at its last element. -/

/-- Go `*arg += s`: append `s` to the last element of `newArgs`.  Go
dereferences a pointer that exists whenever this runs; on an empty list
we return it unchanged (never reached from `parseArgs`). -/
def appendToLast : List String → String → List String
  | [], _ => []
  | [a], s => [a ++ s]
  | a :: rest, s => a :: appendToLast rest s

/-- The inner character loop of `parseArgs` (cli.go:135-155): backslash
handling, quote toggling, and the default case that appends the rune
(note: a space character takes the default case here). -/
def parseArgsChars : List Char → List String → Bool → Bool →
    List String × Bool × Bool
  | [], newArgs, inQuote, isEscaped => (newArgs, inQuote, isEscaped)
  | c :: cs, newArgs, inQuote, isEscaped =>
    if c == '\\' then
      if isEscaped then parseArgsChars cs (appendToLast newArgs "\\") inQuote false
      else parseArgsChars cs newArgs inQuote true
    else if c == '"' then
      if isEscaped then parseArgsChars cs (appendToLast newArgs "\"") inQuote false
      else parseArgsChars cs newArgs (!inQuote) isEscaped
    else parseArgsChars cs (appendToLast newArgs (String.singleton c)) inQuote false

/-- The outer loop of `parseArgs` (cli.go:124-156): skip empty strings;
between strings, append a literal space when inside a quote or escape,
otherwise start a new output token; then scan the string's runes. -/
def parseArgsLoop : List String → List String → Bool → Bool → List String
  | [], newArgs, _, _ => newArgs
  | t :: ts, newArgs, inQuote, isEscaped =>
    if t == "" then parseArgsLoop ts newArgs inQuote isEscaped
    else
      match parseArgsChars t.data
          (if inQuote || isEscaped then appendToLast newArgs " " else newArgs ++ [""])
          inQuote (if inQuote || isEscaped then false else isEscaped) with
      | (na1, q1, e1) => parseArgsLoop ts na1 q1 e1

/-- `parseArgs` (cli.go:115-159); Go returns the input itself when it is
`nil` or empty. -/
def parseArgs (args : List String) : List String :=
  if args.isEmpty then args else parseArgsLoop args [] false false

/-! Spec model of the tokenizer, for the refinement claim C4.  The spec
describes the tokenizer as: join the input strings with single spaces,
then scan the joined string once with `inQuote` / `isEscaped` state,
where an unescaped unquoted space ends the current token. -/

/-- Modelled from the spec (section 4.2): character scan of the joined
string.  Identical to `parseArgsChars` except that a space character is
treated by the quote/escape state instead of being literal. -/
def tokenizeSpecChars : List Char → List String → Bool → Bool → List String
  | [], newArgs, _, _ => newArgs
  | c :: cs, newArgs, inQuote, isEscaped =>
    if c == '\\' then
      if isEscaped then tokenizeSpecChars cs (appendToLast newArgs "\\") inQuote false
      else tokenizeSpecChars cs newArgs inQuote true
    else if c == '"' then
      if isEscaped then tokenizeSpecChars cs (appendToLast newArgs "\"") inQuote false
      else tokenizeSpecChars cs newArgs (!inQuote) isEscaped
    else if c == ' ' then
      if inQuote || isEscaped then tokenizeSpecChars cs (appendToLast newArgs " ") inQuote false
      else tokenizeSpecChars cs (newArgs ++ [""]) inQuote isEscaped
    else tokenizeSpecChars cs (appendToLast newArgs (String.singleton c)) inQuote false

/-- Modelled from the spec (section 4.2): join with single spaces, then
scan; empty input yields an empty sequence. -/
def tokenizeSpec (args : List String) : List String :=
  if args.isEmpty then [] else tokenizeSpecChars (joinSpace args).data [""] false false

/-! The history manager (history.go).  The Go `index` is an `int`; the
entries are behind pointers but only mutated through the methods below,
so a functional record is faithful.  Out-of-range entry reads panic in
Go; the model returns the input state unchanged at those points, which
are unreachable from histories built by the exported operations. -/

/-- `line` (history.go:3-6). -/
structure line where
  original : String
  edited : String
  isEdited : Bool
deriving DecidableEq, Repr

/-- `history` (history.go:8-11). -/
structure history where
  entries : List line
  index : Int
deriving DecidableEq, Repr

def history.isNew (h : history) : Bool :=
  h.entries.length == 0 || h.index == (h.entries.length : Int)

def history.isFirst (h : history) : Bool :=
  h.entries.length == 0 || h.index == 0

def history.isLast (h : history) : Bool :=
  h.entries.length == 0 || h.index == (h.entries.length : Int) - 1

def history.first (h : history) : history :=
  if h.isFirst then h else { h with index := 0 }

def history.last (h : history) : history :=
  if h.isLast then h else { h with index := (h.entries.length : Int) - 1 }

def history.prev (h : history) : history :=
  if h.isFirst then h else { h with index := h.index - 1 }

def history.next (h : history) : history :=
  if h.isLast then h else { h with index := h.index + 1 }

/-- The entry `h.entries[h.index]`; `none` where Go would panic. -/
def history.entryAt (h : history) : Option line :=
  if h.index < 0 then none else h.entries.get? h.index.toNat

/-- `get` (history.go:66-74). -/
def history.get (h : history) : String :=
  if h.isNew then ""
  else match h.entryAt with
  | none => ""
  | some e => if e.isEdited then e.edited else e.original

/-- `new` (history.go:57-64): move to the last entry; if its effective
text is empty do nothing, otherwise advance the index and append a
fresh empty entry. -/
def history.new (h : history) : history :=
  if h.last.get == "" then h.last
  else { entries := h.last.entries ++ [⟨"", "", false⟩], index := h.last.index + 1 }

/-- `set` (history.go:76-89). -/
def history.set (h : history) (s : String) : history :=
  if h.isNew then { h with entries := h.entries ++ [⟨s, "", false⟩] }
  else match h.entryAt with
  | none => h
  | some e =>
    if h.isLast then { h with entries := h.entries.set h.index.toNat { e with original := s } }
    else if s == e.original then
      { h with entries := h.entries.set h.index.toNat { e with isEdited := false } }
    else
      { h with entries := h.entries.set h.index.toNat { e with edited := s, isEdited := true } }

/-- `revert` (history.go:91-97). -/
def history.revert (h : history) : history :=
  if h.isNew then h
  else match h.entryAt with
  | none => h
  | some e =>
    if !e.isEdited then h
    else { h with entries := h.entries.set h.index.toNat { e with edited := "", isEdited := false } }

/-- `revertAndAdd` (history.go:99-105): replace the last entry by a
fresh one whose original is the current entry's edited text, then
revert the current entry. -/
def history.revertAndAdd (h : history) : history :=
  if h.isLast then h
  else match h.entryAt with
  | none => h
  | some e =>
    if !e.isEdited then h
    else history.revert { h with entries := h.entries.set (h.entries.length - 1) ⟨e.edited, "", false⟩ }

/-- Histories reachable from the empty history through the exported
operations (history.go). -/
inductive Reachable : history → Prop where
  | empty : Reachable ⟨[], 0⟩
  | first {h} : Reachable h → Reachable h.first
  | last {h} : Reachable h → Reachable h.last
  | prev {h} : Reachable h → Reachable h.prev
  | next {h} : Reachable h → Reachable h.next
  | new {h} : Reachable h → Reachable h.new
  | set {h} (s : String) : Reachable h → Reachable (h.set s)
  | revert {h} : Reachable h → Reachable h.revert
  | revertAndAdd {h} : Reachable h → Reachable h.revertAndAdd

/-! The redraw engine `drawText` (cli.go:58-98), restricted to what it
computes: the walk of the screen position, the cells it emits and the
hardware-cursor position it sets (the last `termbox.SetCursor` call
wins). -/

/-- A screen position (`pos`, cli.go:16-18): `x` is the column, `y` the
row. -/
structure pos where
  x : Int
  y : Int
deriving DecidableEq, Repr

/-- What a `drawText` call did: final drawing position, the hardware
cursor position if one was set, and the emitted cells in order. -/
structure DrawState where
  curPos : pos
  cursorPos : Option pos
  cells : List (pos × Char)
deriving DecidableEq, Repr

/-- The rune loop of `drawText` (cli.go:62-94) including the final
cursor check after the loop; `termSizeX` is the terminal width, `i` the
count of code points drawn so far. -/
def drawTextLoop (termSizeX cursor : Int) : List Char → Int → pos →
    Option pos → List (pos × Char) → DrawState
  | [], i, p, cpos, cells => ⟨p, if i == cursor then some p else cpos, cells⟩
  | r :: rest, i, p, cpos, cells =>
    let cpos' := if i == cursor then some p else cpos
    if r == '\r' then drawTextLoop termSizeX cursor rest i ⟨0, p.y⟩ cpos' cells
    else if r == '\n' then drawTextLoop termSizeX cursor rest i ⟨0, p.y + 1⟩ cpos' cells
    else
      let cells' := cells ++ [(p, r)]
      let p' := if p.x + 1 ≥ termSizeX then pos.mk 0 (p.y + 1) else pos.mk (p.x + 1) p.y
      drawTextLoop termSizeX cursor rest (i + 1) p' cpos' cells'

/-- `drawText` (cli.go:58-98) as a function of the terminal width, the
logical cursor, the line and the starting position `curPos`. -/
def drawText (termSizeX cursor : Int) (lineStr : String) (p : pos) : DrawState :=
  drawTextLoop termSizeX cursor lineStr.data 0 p none []

/-! The execution surface `Exec` (cli.go:180-235), modelled by the
effect it produces.  `args == nil` and `args` empty cannot be told
apart in the list model; in `Exec` the distinction never matters
because the executable branch only runs when `possibilities` is
non-`nil`, and then `args` is a (possibly empty) non-`nil` slice. -/

/-- What a call to `Exec` did. -/
inductive ExecEffect where
  | nothing
  | notFound
  | usage (name : String) (argNames : List String)
  | ran (args : List String)
  | listing (names : List String)
deriving DecidableEq, Repr

/-- The sorted, handler-filtered listing loop of `Exec`
(cli.go:208-230): sort the keys of `items` alphabetically and print
only those whose command has a non-nil handler. -/
def listingNames (items : List (String × Command)) : List String :=
  ((items.map Prod.fst).insertionSort (fun a b => a ≤ b)).filter
    (fun n => match lookup items n with
      | some c => c.hasHandler
      | none => false)

/-- `Exec` (cli.go:180-235).  A panic inside `resolvePath` propagates. -/
def Exec (l : List (String × Command)) (path : List String) :
    Except String ExecEffect :=
  match resolvePath l path with
  | Except.error e => Except.error e
  | Except.ok r =>
    match r.possibilities with
    | none => Except.ok ExecEffect.nothing
    | some items =>
      if items.isEmpty then Except.ok ExecEffect.notFound
      else if items.length == 1 && !r.list then
        match items.head? with
        | some (name, item) =>
          if item.hasHandler then
            let newArgs := parseArgs r.args
            if newArgs.length == item.arguments.length then Except.ok (ExecEffect.ran newArgs)
            else Except.ok (ExecEffect.usage name item.arguments)
          else Except.ok ExecEffect.nothing
        | none => Except.ok ExecEffect.notFound
      else Except.ok (ExecEffect.listing (listingNames items))

/-! Concrete fixtures used by the individual claims. -/

/-- C1 fixture: a single leaf command with a handler. -/
def c1DemoCmd : Command := Command.mk "a foo" [] true []

def c1Demo : List (String × Command) := [("foo", c1DemoCmd)]

/-- C2 fixture: a branch without a handler owning one leaf child. -/
def c2LeafB : Command := Command.mk "leaf" [] true []

def c2Branch : Command := Command.mk "branch" [] false [("b", c2LeafB)]

def c2Demo : List (String × Command) := [("a", c2Branch)]

/-- C2 witness fixture: a single leaf with a handler. -/
def c2WitCmd : Command := Command.mk "w" [] true []

def c2WitDemo : List (String × Command) := [("foo", c2WitCmd)]

/-- C3 fixture: a node violating the branch/arguments invariant. -/
def c3DemoCmd : Command := Command.mk "bad" ["x"] false [("y", Command.mk "" [] true [])]

def c3Demo : List (String × Command) := [("bad", c3DemoCmd)]

/-- C5 fixture: three entries, cursor on index 0 with an override. -/
def c5DemoH : history :=
  ⟨[⟨"ls", "ls -l", true⟩, ⟨"cd /", "", false⟩, ⟨"ls -la", "", false⟩], 0⟩

/-! C6 fixture: the spec scenario, step by step. -/

def c6h1 : history := (⟨[], 0⟩ : history).set "ls"

def c6h2 : history := c6h1.new

def c6h3 : history := c6h2.set "cd /"

def c6h4 : history := c6h3.new

def c6h5 : history := c6h4.set "ls -la"

def c6h6 : history := c6h5.first

def c6h7 : history := c6h6.set "ls -l"

def c6h8 : history := c6h7.set "ls"

/-- C7 witness fixture. -/
def c7Demo : List (String × Command) := [("foo", Command.mk "" [] true [])]

/-- C10 witness fixture: one command with a handler, one without. -/
def c10Demo : List (String × Command) :=
  [("a", Command.mk "with handler" [] true []), ("b", Command.mk "no handler" [] false [])]

/-! Helper lemmas about the history manager. -/

theorem history.isLast_eq_false {h : history} :
    h.isLast = false ↔ h.entries.length ≠ 0 ∧ h.index ≠ (h.entries.length : Int) - 1 := by
  simp [history.isLast]

theorem history.entryAt_eq_some {h : history} {e : line} (hAt : h.entryAt = some e) :
    0 ≤ h.index ∧ h.index.toNat < h.entries.length ∧
      h.entries.get? h.index.toNat = some e := by
  unfold history.entryAt at hAt
  split at hAt
  · exact absurd hAt (by simp)
  · refine ⟨by omega, List.get?_eq_some.mp hAt |>.1, hAt⟩

/-- C5, positive case, stated over the fields: under the guards of
`revertAndAdd`, the result is the double update. -/
theorem revertAndAdd_spec (h : history) (e : line)
    (hLast : h.isLast = false) (hAt : h.entryAt = some e) (hEd : e.isEdited = true) :
    h.revertAndAdd =
      ⟨(h.entries.set (h.entries.length - 1) ⟨e.edited, "", false⟩).set h.index.toNat
        ⟨e.original, "", false⟩, h.index⟩ := by
  obtain ⟨hnz, hne⟩ := history.isLast_eq_false.mp hLast
  obtain ⟨hpos, hlt, hget⟩ := history.entryAt_eq_some hAt
  have htne : h.entries.length - 1 ≠ h.index.toNat := by omega
  rw [history.revertAndAdd, hLast, hAt]
  simp only [hEd, Bool.not_true, Bool.false_eq_true, if_false, reduceIte]
  rw [history.revert]
  have hNew : history.isNew
      { h with entries := h.entries.set (h.entries.length - 1) ⟨e.edited, "", false⟩ } = false := by
    simp [history.isNew]
    refine ⟨fun hh => hnz (by simp [hh]), by omega⟩
  rw [hNew]
  have hAt2 : history.entryAt
      { h with entries := h.entries.set (h.entries.length - 1) ⟨e.edited, "", false⟩ } = some e := by
    unfold history.entryAt
    simp only [if_neg (by omega : ¬h.index < 0)]
    rw [List.get?_set_ne _ _ htne]
    exact hget
  rw [hAt2]
  simp [hEd]

/-- C5: on a non-last, overridden entry, `revertAndAdd` replaces the
last entry with a fresh entry whose original is the current entry's
edited text, clears the override on the current entry (keeping its
original), and keeps the number of entries; it is a no-op on the last
entry or without an active override; and the `["ls","cd /","ls -la"]`
scenario behaves as the spec says. -/
theorem c5_revertAndAdd :
    (∀ (h : history) (e : line), h.isLast = false → h.entryAt = some e → e.isEdited = true →
      h.revertAndAdd =
        ⟨(h.entries.set (h.entries.length - 1) ⟨e.edited, "", false⟩).set h.index.toNat
          ⟨e.original, "", false⟩, h.index⟩ ∧
      h.revertAndAdd.entries.length = h.entries.length) ∧
    (∀ h : history, h.isLast = true → h.revertAndAdd = h) ∧
    (∀ (h : history) (e : line), h.entryAt = some e → e.isEdited = false →
      h.revertAndAdd = h) ∧
    c5DemoH.revertAndAdd =
      ⟨[⟨"ls", "", false⟩, ⟨"cd /", "", false⟩, ⟨"ls -l", "", false⟩], 0⟩ := by
  refine ⟨fun h e hLast hAt hEd => ?_, fun h hLast => ?_, fun h e hAt hEd => ?_, by decide⟩
  · have := revertAndAdd_spec h e hLast hAt hEd
    rw [this]
    simp
  · simp [history.revertAndAdd, hLast]
  · rw [history.revertAndAdd]
    split
    · rfl
    · rw [hAt]
      simp [hEd]

/-- C5 witness: the positive case of `c5_revertAndAdd` applied to the
concrete three-entry history. -/
theorem c5_revertAndAdd_witness :
    c5DemoH.revertAndAdd =
      ⟨(c5DemoH.entries.set (c5DemoH.entries.length - 1) ⟨"ls -l", "", false⟩).set
        c5DemoH.index.toNat ⟨"ls", "", false⟩, c5DemoH.index⟩ ∧
    c5DemoH.revertAndAdd.entries.length = c5DemoH.entries.length :=
  c5_revertAndAdd.1 c5DemoH ⟨"ls", "ls -l", true⟩ (by decide) (by decide) rfl

/-- C6: the scenario `set "ls"`, `new`, `set "cd /"`, `new`,
`set "ls -la"` yields three entries; after `first` (cursor at index 0),
`set "ls -l"` installs an override and `set "ls"` clears it again, the
original staying `"ls"`; `get` returns the effective text after every
step. -/
theorem c6_history_scenario :
    c6h5.entries.length = 3 ∧
    c6h1.get = "ls" ∧ c6h2.get = "" ∧ c6h3.get = "cd /" ∧ c6h4.get = "" ∧
    c6h5.get = "ls -la" ∧
    c6h6.index = 0 ∧ c6h6.get = "ls" ∧
    c6h7.entries.get? 0 = some ⟨"ls", "ls -l", true⟩ ∧ c6h7.get = "ls -l" ∧
    (c6h8.entries.get? 0).map line.isEdited = some false ∧
    (c6h8.entries.get? 0).map line.original = some "ls" ∧ c6h8.get = "ls" := by
  decide

/-- C9: with terminal width 10 and buffer `"0123456789A"`, logical
cursor 10, the redraw places the hardware cursor at column 0 of row 1
(the wrap boundary), not at column 10 of row 0. -/
theorem c9_redraw_cursor :
    (drawText 10 10 "0123456789A" ⟨0, 0⟩).cursorPos = some ⟨0, 1⟩ ∧
    (drawText 10 10 "0123456789A" ⟨0, 0⟩).cursorPos ≠ some ⟨10, 0⟩ := by
  decide

/-- C1 counterexample: for the tree `{foo}` and the path
`["foo", "?"]`, `resolvePath` keeps the `"?"` token in the returned
remaining arguments (`args = ["?"]`), contradicting the claim that the
`"?"` token is excluded from `remainingArguments`. -/
theorem c1_counterexample :
    (resolvePath c1Demo ["foo", "?"]).map ResolveResult.args = Except.ok ["?"] ∧
    "?" ∈ ["?"] := ⟨rfl, by decide⟩

/-- C2 counterexample: in the tree `{a ↦ {b}}` (where `a` has no
handler), the path `["a"]` matches uniquely at its only level, yet
`resolvePath` returns a two-entry `matches` mapping (the reached node
and its exposed child), not a single-entry one. -/
theorem c2_counterexample :
    (descend none c2Demo ["a"]).isSome = true ∧
    (resolvePath c2Demo ["a"]).map (fun r => r.possibilities.map List.length) =
      Except.ok (some 2) := ⟨rfl, rfl⟩

/-- C3 counterexample: the tree contains a node with both children and
declared arguments, yet invoking `resolvePath` on the empty path
returns normally instead of panicking — so not every invocation against
such a tree is fatal. -/
theorem c3_counterexample :
    c3DemoCmd.sub ≠ [] ∧ c3DemoCmd.arguments ≠ [] ∧
    resolvePath c3Demo [] = Except.ok ⟨none, [], false⟩ := by
  refine ⟨by simp [c3DemoCmd, Command.sub], by simp [c3DemoCmd, Command.arguments], rfl⟩

/-- C4 counterexample: on the input `["a b"]` (one string containing a
raw space), `parseArgs` keeps the space literal and returns `["a b"]`,
while the spec's join-then-scan model splits at the unquoted space and
returns `["a", "b"]` — so `parseArgs` does not behave as if the input
were joined and rescanned. -/
theorem c4_counterexample :
    parseArgs ["a b"] = ["a b"] ∧ tokenizeSpec ["a b"] = ["a", "b"] ∧
    parseArgs ["a b"] ≠ tokenizeSpec ["a b"] := by
  decide

/-- C7: empty input (no tokens, or a single empty token) makes
`resolvePath` return the nil (`none`) possibilities map with no
remaining arguments and no forced listing, on which `Exec` does
nothing; a non-nil empty (`some []`) possibilities map instead makes
`Exec` report that the command was not found. -/
theorem c7_empty_vs_notfound :
    (∀ l : List (String × Command),
      resolvePath l [] = Except.ok ⟨none, [], false⟩ ∧
      resolvePath l [""] = Except.ok ⟨none, [], false⟩ ∧
      Exec l [] = Except.ok ExecEffect.nothing ∧
      Exec l [""] = Except.ok ExecEffect.nothing) ∧
    (∀ (l : List (String × Command)) (path : List String) (r : ResolveResult),
      resolvePath l path = Except.ok r → r.possibilities = some [] →
      Exec l path = Except.ok ExecEffect.notFound) := by
  constructor
  · exact fun l => ⟨rfl, rfl, rfl, rfl⟩
  · intro l path r hr hp
    unfold Exec
    rw [hr]
    simp [hp]

/-- C7 witness: a concrete not-found path against a one-command tree. -/
theorem c7_empty_vs_notfound_witness :
    Exec c7Demo ["zz"] = Except.ok ExecEffect.notFound :=
  c7_empty_vs_notfound.2 c7Demo ["zz"] ⟨some [], ["zz"], true⟩ rfl rfl

/-! Helper lemmas for C10: `lookup` against an association list with
distinct keys. -/

theorem mem_of_lookup_eq_some {items : List (String × Command)} {n : String}
    {c : Command} (h : lookup items n = some c) : (n, c) ∈ items := by
  unfold lookup at h
  cases hf : items.find? (fun q => q.1 == n) with
  | none => rw [hf] at h; exact absurd h (by simp)
  | some q =>
    rw [hf] at h
    obtain ⟨q1, q2⟩ := q
    have h1 : (q1 == n) = true := by simpa using List.find?_some hf
    have h2 := List.mem_of_find?_eq_some hf
    simp only [Option.map_some', Option.some.injEq] at h
    have hq1n : q1 = n := by simpa using h1
    rw [← hq1n, ← h]
    exact h2

theorem lookup_eq_some_of_mem {items : List (String × Command)}
    (hnd : (items.map Prod.fst).Nodup) {n : String} {c : Command}
    (h : (n, c) ∈ items) : lookup items n = some c := by
  induction items with
  | nil => simp at h
  | cons q rest ih =>
    obtain ⟨q1, q2⟩ := q
    simp only [List.map_cons, List.nodup_cons, List.mem_map] at hnd
    obtain ⟨hq1, hnd'⟩ := hnd
    rcases List.mem_cons.mp h with heq | hmem
    · rw [← heq]
      simp [lookup, List.find?]
    · have hne : (q1 == n) = false := by
        simp only [beq_eq_false_iff_ne, ne_eq]
        intro hq
        exact hq1 ⟨(n, c), hmem, by simp [hq]⟩
      simp only [lookup, List.find?, hne]
      exact ih hnd' hmem

/-- C10: the candidate listing printed by `Exec` contains exactly the
candidate names whose command has a non-nil handler — handler-less
candidates are silently dropped even though they sit in the resolver's
`matches`; and whenever resolution yields a non-empty candidate set
that is not a unique non-listing match, `Exec` prints exactly that
filtered listing. -/
theorem c10_listing_handlers :
    (∀ items : List (String × Command), (items.map Prod.fst).Nodup →
      ∀ n : String, n ∈ listingNames items ↔ ∃ c, (n, c) ∈ items ∧ c.hasHandler = true) ∧
    (∀ (l : List (String × Command)) (path : List String) (r : ResolveResult)
        (items : List (String × Command)),
      resolvePath l path = Except.ok r → r.possibilities = some items →
      items.isEmpty = false → (items.length == 1 && !r.list) = false →
      Exec l path = Except.ok (ExecEffect.listing (listingNames items))) := by
  constructor
  · intro items hnd n
    unfold listingNames
    rw [List.mem_filter, List.mem_insertionSort]
    constructor
    · rintro ⟨hmem, hp⟩
      cases hlk : lookup items n with
      | none => rw [hlk] at hp; exact absurd hp (by simp)
      | some c =>
        rw [hlk] at hp
        exact ⟨c, mem_of_lookup_eq_some hlk, hp⟩
    · rintro ⟨c, hmem, hh⟩
      refine ⟨List.mem_map.mpr ⟨(n, c), hmem, rfl⟩, ?_⟩
      rw [lookup_eq_some_of_mem hnd hmem]
      exact hh
  · intro l path r items hr hp hne hnl
    unfold Exec
    rw [hr]
    simp only [hp, hne, Bool.false_eq_true, if_false, hnl]

/-- C10 witness: in a two-command map where only `"a"` has a handler,
the characterization instantiated at `"a"`. -/
theorem c10_listing_handlers_witness :
    "a" ∈ listingNames c10Demo ↔ ∃ c, ("a", c) ∈ c10Demo ∧ c.hasHandler = true :=
  c10_listing_handlers.1 c10Demo (by decide) "a"

/-! Helper lemmas for C8: the strengthened cursor invariant, preserved
by every history operation. -/

/-- The strengthened invariant: the cursor sits on a real entry, except
in the empty history where it is 0. -/
def HInv (h : history) : Prop :=
  (0 ≤ h.index ∧ h.index < (h.entries.length : Int)) ∨ (h.index = 0 ∧ h.entries = [])

theorem HInv_empty : HInv ⟨[], 0⟩ := Or.inr ⟨rfl, rfl⟩

theorem HInv.len_pos {h : history} (hI : HInv h) (hne : h.entries.length ≠ 0) :
    0 ≤ h.index ∧ h.index < (h.entries.length : Int) := by
  rcases hI with hI | ⟨_, hnil⟩
  · exact hI
  · exact absurd (by simp [hnil]) hne

theorem HInv.first {h : history} (hI : HInv h) : HInv h.first := by
  unfold history.first
  split
  · exact hI
  · next hF =>
    simp only [history.isFirst, Bool.or_eq_true, beq_iff_eq, not_or] at hF
    obtain ⟨h1, h2⟩ := hI.len_pos hF.1
    exact Or.inl ⟨le_refl 0, by simp only; omega⟩

theorem HInv.last {h : history} (hI : HInv h) : HInv h.last := by
  unfold history.last
  split
  · exact hI
  · next hL =>
    simp only [history.isLast, Bool.or_eq_true, beq_iff_eq, not_or] at hL
    have hlen : h.entries.length ≠ 0 := hL.1
    exact Or.inl ⟨by simp only; omega, by simp only; omega⟩

theorem HInv.prev {h : history} (hI : HInv h) : HInv h.prev := by
  unfold history.prev
  split
  · exact hI
  · next hF =>
    simp only [history.isFirst, Bool.or_eq_true, beq_iff_eq, not_or] at hF
    obtain ⟨h1, h2⟩ := hI.len_pos hF.1
    have h3 : h.index ≠ 0 := hF.2
    exact Or.inl ⟨by simp only; omega, by simp only; omega⟩

theorem HInv.next {h : history} (hI : HInv h) : HInv h.next := by
  unfold history.next
  split
  · exact hI
  · next hL =>
    simp only [history.isLast, Bool.or_eq_true, beq_iff_eq, not_or] at hL
    obtain ⟨h1, h2⟩ := hI.len_pos hL.1
    have h3 : h.index ≠ (h.entries.length : Int) - 1 := hL.2
    exact Or.inl ⟨by simp only; omega, by simp only; omega⟩

theorem HInv.new {h : history} (hI : HInv h) : HInv h.new := by
  unfold history.new
  have h1I : HInv h.last := hI.last
  split
  · exact h1I
  · next hg =>
    have hlen : h.last.entries.length ≠ 0 := by
      intro hz
      have hnil : h.last.entries = [] := List.length_eq_zero.mp hz
      have : h.last.get = "" := by
        unfold history.get history.isNew
        simp [hnil]
      simp [this] at hg
    obtain ⟨ha, hb⟩ := h1I.len_pos hlen
    refine Or.inl ⟨?_, ?_⟩
    · simp only
      omega
    · simp only [List.length_append, List.length_cons, List.length_nil]
      push_cast
      omega

theorem HInv.set {h : history} (s : String) (hI : HInv h) : HInv (h.set s) := by
  unfold history.set
  split
  · next hN =>
    simp only [history.isNew, Bool.or_eq_true, beq_iff_eq] at hN
    have : h.index = 0 ∧ h.entries = [] := by
      rcases hI with ⟨h1, h2⟩ | hr
      · rcases hN with hN | hN
        · exact absurd h2 (by simp [hN]; omega)
        · omega
      · exact hr
    exact Or.inl ⟨by simp only; omega, by simp [this.1, this.2]⟩
  · split
    · exact hI
    · split
      · rcases hI with ⟨h1, h2⟩ | hr
        · exact Or.inl ⟨h1, by simpa using h2⟩
        · exact Or.inr ⟨hr.1, by simp [hr.2]⟩
      · split
        · rcases hI with ⟨h1, h2⟩ | hr
          · exact Or.inl ⟨h1, by simpa using h2⟩
          · exact Or.inr ⟨hr.1, by simp [hr.2]⟩
        · rcases hI with ⟨h1, h2⟩ | hr
          · exact Or.inl ⟨h1, by simpa using h2⟩
          · exact Or.inr ⟨hr.1, by simp [hr.2]⟩

theorem HInv.revert {h : history} (hI : HInv h) : HInv h.revert := by
  unfold history.revert
  split
  · exact hI
  · split
    · exact hI
    · split
      · exact hI
      · rcases hI with ⟨h1, h2⟩ | hr
        · exact Or.inl ⟨h1, by simpa using h2⟩
        · exact Or.inr ⟨hr.1, by simp [hr.2]⟩

theorem HInv.revertAndAdd {h : history} (hI : HInv h) : HInv h.revertAndAdd := by
  unfold history.revertAndAdd
  split
  · exact hI
  · split
    · exact hI
    · split
      · exact hI
      · apply HInv.revert
        rcases hI with ⟨h1, h2⟩ | hr
        · exact Or.inl ⟨h1, by simpa using h2⟩
        · exact Or.inr ⟨hr.1, by simp [hr.2]⟩

theorem Reachable.hinv {h : history} (hR : Reachable h) : HInv h := by
  induction hR with
  | empty => exact HInv_empty
  | first _ ih => exact ih.first
  | last _ ih => exact ih.last
  | prev _ ih => exact ih.prev
  | next _ ih => exact ih.next
  | new _ ih => exact ih.new
  | set s _ ih => exact ih.set s
  | revert _ ih => exact ih.revert
  | revertAndAdd _ ih => exact ih.revertAndAdd

/-- C8: in every history reachable from the empty history through the
exported operations, the navigation cursor stays in the closed interval
from 0 to the number of entries. -/
theorem c8_cursor_bounds (h : history) (hR : Reachable h) :
    0 ≤ h.index ∧ h.index ≤ (h.entries.length : Int) := by
  rcases hR.hinv with ⟨h1, h2⟩ | ⟨h1, h2⟩
  · exact ⟨h1, le_of_lt h2⟩
  · simp [h1, h2]

/-- C8 witness: the bound instantiated at a concrete reachable
history. -/
theorem c8_cursor_bounds_witness :
    0 ≤ ((⟨[], 0⟩ : history).set "ls").index ∧
    ((⟨[], 0⟩ : history).set "ls").index ≤ (((⟨[], 0⟩ : history).set "ls").entries.length : Int) :=
  c8_cursor_bounds _ (Reachable.set "ls" Reachable.empty)

/-! Helper lemmas about the resolver tail for C1, C2 and C3. -/

/-- Whenever the post-loop block returns normally, the returned `args`
and `list` fields are the ones `finish` computes, and the returned map
is non-nil. -/
theorem afterLoop_ok {path : List String} {aI : Nat}
    {poss : List (String × Command)} {pfx : String}
    {curList : List (String × Command)} {curCmd : Option Command}
    {lf : Bool} {r : ResolveResult}
    (h : afterLoop path aI poss pfx curList curCmd lf = Except.ok r) :
    r.args = path.drop aI ∧
    r.list = (lf || (!(path.drop aI).isEmpty &&
      decide ((path.drop aI).getLast? = some "?"))) ∧
    ∃ ps, r.possibilities = some ps := by
  unfold afterLoop finish at h
  split at h
  · cases h
    exact ⟨rfl, rfl, _, rfl⟩
  · split at h
    · exact absurd h (by simp)
    · split at h
      · cases h
        exact ⟨rfl, rfl, _, rfl⟩
      · cases h
        exact ⟨rfl, rfl, _, rfl⟩

/-- The dropped suffix keeps the whole `pending` part, so its last
entry is the last entry of `pending`. -/
theorem drop_append_getLast? {done pending : List String} {aI : Nat}
    (haI : aI ≤ done.length) (hne : pending ≠ []) :
    ((done ++ pending).drop aI).getLast? = pending.getLast? := by
  rw [List.drop_append_of_le_length haI]
  exact List.getLast?_append_of_ne_nil _ hne

/-- For a loop state whose pending tokens end in `"?"` and whose
`argsIndex` has not run past the scanned front, a normal return has the
listing flag set and keeps the `"?"` in the returned arguments. -/
theorem resolveLoop_trailing (pending : List String) :
    ∀ (done : List String) (aI : Nat) (poss : List (String × Command))
      (pfx : String) (curList : List (String × Command))
      (curCmd : Option Command) (lf : Bool) (r : ResolveResult),
    pending.getLast? = some "?" → aI ≤ done.length →
    resolveLoop done pending aI poss pfx curList curCmd lf = Except.ok r →
    r.list = true ∧ r.args.getLast? = some "?" := by
  induction pending with
  | nil => intro done aI poss pfx curList curCmd lf r hq; simp at hq
  | cons tok rest ih =>
    intro done aI poss pfx curList curCmd lf r hq haI hr
    have hpne : tok :: rest ≠ [] := by simp
    simp only [resolveLoop] at hr
    split at hr
    · -- trailing "?" break: afterLoop with the flag forced
      obtain ⟨ha, hl, _⟩ := afterLoop_ok hr
      refine ⟨by rw [hl]; simp, ?_⟩
      rw [ha, drop_append_getLast? haI hpne]
      exact hq
    · next hcond =>
      have hrest : rest ≠ [] := by
        intro hr0
        subst hr0
        simp at hq
        simp [hq] at hcond
      have hq' : rest.getLast? = some "?" := by
        rw [← hq]
        cases rest with
        | nil => exact absurd rfl hrest
        | cons b l => simp [List.getLast?_cons_cons]
      split at hr
      · -- empty current list: plain afterLoop
        obtain ⟨ha, hl, _⟩ := afterLoop_ok hr
        have hlast : ((done ++ tok :: rest).drop aI).getLast? = some "?" := by
          rw [drop_append_getLast? haI hpne]
          cases rest with
          | nil => exact absurd rfl hrest
          | cons b l => simpa [List.getLast?_cons_cons] using hq'
        have hnemp : ((done ++ tok :: rest).drop aI).isEmpty = false := by
          cases hd : (done ++ tok :: rest).drop aI with
          | nil => rw [hd] at hlast; simp at hlast
          | cons x xs => simp
        refine ⟨?_, by rw [ha]; exact hlast⟩
        rw [hl, hnemp, hlast]
        simp
      · split at hr
        · -- exact match: recurse
          exact ih (done ++ [tok]) (aI + 1) _ _ _ _ lf r hq' (by simp; omega) hr
        · split at hr
          · -- unique prefix match: recurse
            exact ih (done ++ [tok]) (aI + 1) _ _ _ _ lf r hq' (by simp; omega) hr
          · -- ambiguous or not found: direct return with the flag set
            cases hr
            refine ⟨rfl, ?_⟩
            rw [drop_append_getLast? haI hpne]
            exact hq

/-- C1 (amended): for every tree and every path whose last token is the
literal `"?"`, a non-panicking `resolvePath` forces `list = true` and
never consumes the `"?"` — but, contrary to the original claim, the
`"?"` token is retained in `remainingArguments` (it is its last
element), not excluded from it. -/
theorem c1_trailing_question_amended (l : List (String × Command))
    (path : List String) (r : ResolveResult)
    (hq : path.getLast? = some "?")
    (hr : resolvePath l path = Except.ok r) :
    r.list = true ∧ r.args.getLast? = some "?" := by
  unfold resolvePath at hr
  split at hr
  · next hg =>
    simp only [Bool.or_eq_true, Bool.and_eq_true, beq_iff_eq] at hg
    rcases hg with hg | ⟨hlen, hhd⟩
    · rw [List.isEmpty_iff.mp hg] at hq
      simp at hq
    · have : path = [""] := by
        cases path with
        | nil => simp at hlen
        | cons a t =>
          cases t with
          | nil => simpa using hhd
          | cons b u => simp at hlen
      rw [this] at hq
      simp at hq
  · exact resolveLoop_trailing path [] 0 [] "" l none false r hq (by simp) hr

/-- C1 witness: the amended statement applied to the tree `{foo}` and
the path `["foo", "?"]`. -/
theorem c1_trailing_question_witness :
    (⟨some [("foo", c1DemoCmd)], ["?"], true⟩ : ResolveResult).list = true ∧
    (⟨some [("foo", c1DemoCmd)], ["?"], true⟩ : ResolveResult).args.getLast? = some "?" :=
  c1_trailing_question_amended c1Demo ["foo", "?"] _ rfl rfl

/-- When the walk matches uniquely at every level (expressed through
`descend`) and the path does not end in the listing sentinel, the loop
runs to completion, consuming every token, and hands the reached node
to the post-loop block. -/
theorem resolveLoop_descend (pending : List String) :
    ∀ (done : List String) (poss : List (String × Command)) (pfx : String)
      (curList : List (String × Command)) (curCmd : Option Command) (c' : Command),
    descend curCmd curList pending = some c' →
    pending.getLast? ≠ some "?" →
    (∀ c, curCmd = some c → curList = c.sub ∧ ∃ k, poss = [(k, c)]) →
    ∃ k' pfx', resolveLoop done pending done.length poss pfx curList curCmd false =
      afterLoop (done ++ pending) (done ++ pending).length [(k', c')] pfx'
        c'.sub (some c') false := by
  induction pending with
  | nil =>
    intro done poss pfx curList curCmd c' hd hq hside
    simp only [descend] at hd
    obtain ⟨hcl, k, hposs⟩ := hside c' hd
    refine ⟨k, pfx, ?_⟩
    rw [hd, hcl, hposs]
    simp [resolveLoop]
  | cons tok rest ih =>
    intro done poss pfx curList curCmd c' hd hq hside
    have h1 : (rest.isEmpty && (tok == "?")) = false := by
      cases hre : rest with
      | nil =>
        rw [hre] at hq
        simp only [List.getLast?_singleton] at hq
        simp only [List.isEmpty_nil, Bool.true_and, beq_eq_false_iff_ne, ne_eq]
        intro htok
        exact hq (by rw [htok])
      | cons b u => simp
    have h2 : curList.isEmpty = false := by
      cases hcl : curList with
      | nil =>
        rw [hcl] at hd
        simp [descend, lookup] at hd
      | cons q u => simp
    have hq' : rest.getLast? ≠ some "?" := by
      cases rest with
      | nil => simp
      | cons b u => rwa [List.getLast?_cons_cons] at hq
    simp only [resolveLoop, h1, Bool.false_eq_true, if_false, h2]
    simp only [descend] at hd
    have hassoc : (done ++ [tok]) ++ rest = done ++ tok :: rest := by simp
    have hlen : (done ++ [tok]).length = done.length + 1 := by simp
    cases hlk : lookup curList tok with
    | some cmd =>
      rw [hlk] at hd
      obtain ⟨k', pfx', heq⟩ := ih (done ++ [tok]) [(joinSpace (done ++ [tok]), cmd)]
        (joinSpace (done ++ [tok])) cmd.sub (some cmd) c' hd hq'
        (fun c hc => by cases hc; exact ⟨rfl, _, rfl⟩)
      rw [hlen, hassoc] at heq
      exact ⟨k', pfx', heq⟩
    | none =>
      rw [hlk] at hd
      cases hfl : curList.filter (fun q => hasPrefixGo tok q.1) with
      | nil =>
        rw [hfl] at hd
        exact Option.noConfusion hd
      | cons q t =>
        cases t with
        | nil =>
          rw [hfl] at hd
          obtain ⟨k', pfx', heq⟩ := ih (done ++ [tok])
            [(trimLeftSpaces (pfx ++ " " ++ q.1), q.2)]
            (trimLeftSpaces (pfx ++ " " ++ (trimLeftSpaces (pfx ++ " " ++ q.1))))
            q.2.sub (some q.2) c' hd hq'
            (fun c hc => by cases hc; exact ⟨rfl, _, rfl⟩)
          rw [hlen, hassoc] at heq
          exact ⟨k', pfx', heq⟩
        | cons q2 t2 =>
          rw [hfl] at hd
          exact Option.noConfusion hd

/-- Entry form of `resolveLoop_descend`: a unique full descent makes
`resolvePath` equal to the post-loop block applied to the reached
node. -/
theorem resolvePath_descend {l : List (String × Command)} {path : List String}
    {c' : Command} (hd : descend none l path = some c')
    (hq : path.getLast? ≠ some "?") (hne : path ≠ [""]) :
    ∃ k' pfx', resolvePath l path =
      afterLoop path path.length [(k', c')] pfx' c'.sub (some c') false := by
  have hp : path ≠ [] := by
    intro h
    rw [h] at hd
    simp [descend] at hd
  have hguard : (path.isEmpty || (path.length == 1 && path.head? == some "")) = false := by
    cases path with
    | nil => exact absurd rfl hp
    | cons a t =>
      cases t with
      | nil =>
        have : a ≠ "" := fun h => hne (by rw [h])
        simp [this]
      | cons b u => simp
  unfold resolvePath
  rw [hguard]
  simp only [Bool.false_eq_true, if_false]
  have := resolveLoop_descend path [] [] "" l none c' hd hq (fun c hc => by cases hc)
  simpa using this

/-- C2 (amended): when exactly one child matches at every level and the
path avoids the `"?"` sentinel and the degenerate single-empty-token
form, a non-panicking `resolvePath` consumes every token
(`remainingArguments = []`, no forced listing) and returns the reached
node as the first `matches` entry; the mapping has exactly that single
entry when the reached node has no children or still owns a handler,
but — contrary to the original claim — when the reached node has
children and a nil handler, its children are added to `matches` as
well. -/
theorem c2_unique_descent_amended (l : List (String × Command))
    (path : List String) (c : Command) (r : ResolveResult)
    (hd : descend none l path = some c) (hq : path.getLast? ≠ some "?")
    (hne : path ≠ [""]) (hr : resolvePath l path = Except.ok r) :
    r.args = [] ∧ r.list = false ∧
    ∃ k pfx, (c.sub = [] → r.possibilities = some [(k, c)]) ∧
      (c.sub ≠ [] → c.hasHandler = true → r.possibilities = some [(k, c)]) ∧
      (c.sub ≠ [] → c.hasHandler = false →
        r.possibilities = some (insertChildren [(k, c)] pfx c.sub)) := by
  obtain ⟨k, pfx, heq⟩ := resolvePath_descend hd hq hne
  rw [heq] at hr
  unfold afterLoop finish at hr
  by_cases hsub : c.sub = []
  · rw [hsub] at hr
    simp only [List.isEmpty_nil, if_true, List.drop_length] at hr
    cases hr
    exact ⟨rfl, rfl, k, pfx, fun _ => rfl, fun hs => absurd hsub hs, fun hs => absurd hsub hs⟩
  · have hsubE : c.sub.isEmpty = false := by
      cases hcs : c.sub with
      | nil => exact absurd hcs hsub
      | cons x xs => simp
    rw [hsubE] at hr
    simp only [Bool.false_eq_true, if_false, Option.map_some', Option.getD_some] at hr
    by_cases harg : c.arguments.isEmpty
    · rw [harg] at hr
      simp only [Bool.not_true, Bool.false_eq_true, if_false, Bool.false_or,
        List.drop_length] at hr
      by_cases hh : c.hasHandler
      · rw [hh] at hr
        simp only [Bool.not_true, Bool.false_eq_true, if_false] at hr
        cases hr
        exact ⟨rfl, rfl, k, pfx, fun hs => absurd hs hsub, fun _ _ => rfl,
          fun _ hhf => absurd hh (by simp [hhf])⟩
      · have hh' : c.hasHandler = false := by simpa using hh
        rw [hh'] at hr
        simp only [Bool.not_false, if_true] at hr
        cases hr
        exact ⟨rfl, rfl, k, pfx, fun hs => absurd hs hsub,
          fun _ hht => absurd hht (by simp [hh']), fun _ _ => rfl⟩
    · have harg' : (!c.arguments.isEmpty) = true := by simp [harg]
      rw [harg'] at hr
      simp at hr

/-- C2 witness: the amended statement applied to a one-leaf tree and
the exact path `["foo"]`. -/
theorem c2_unique_descent_witness :
    (⟨some [("foo", c2WitCmd)], [], false⟩ : ResolveResult).args = [] ∧
    (⟨some [("foo", c2WitCmd)], [], false⟩ : ResolveResult).list = false ∧
    ∃ k pfx, (c2WitCmd.sub = [] →
        (⟨some [("foo", c2WitCmd)], [], false⟩ : ResolveResult).possibilities = some [(k, c2WitCmd)]) ∧
      (c2WitCmd.sub ≠ [] → c2WitCmd.hasHandler = true →
        (⟨some [("foo", c2WitCmd)], [], false⟩ : ResolveResult).possibilities = some [(k, c2WitCmd)]) ∧
      (c2WitCmd.sub ≠ [] → c2WitCmd.hasHandler = false →
        (⟨some [("foo", c2WitCmd)], [], false⟩ : ResolveResult).possibilities =
          some (insertChildren [(k, c2WitCmd)] pfx c2WitCmd.sub)) :=
  c2_unique_descent_amended c2WitDemo ["foo"] c2WitCmd _ rfl (by simp) (by simp) rfl

/-- C3 (amended): a node with both a non-empty children mapping and a
non-empty argument list causes the fatal configuration panic exactly
when resolution completes its descent at that node — not on every
invocation of `resolvePath` against the tree. -/
theorem c3_branch_arguments_amended (l : List (String × Command))
    (path : List String) (c : Command)
    (hd : descend none l path = some c) (hsub : c.sub ≠ [])
    (harg : c.arguments ≠ []) (hq : path.getLast? ≠ some "?")
    (hne : path ≠ [""]) :
    resolvePath l path = Except.error "parent item cannot have arguments" := by
  obtain ⟨k, pfx, heq⟩ := resolvePath_descend hd hq hne
  rw [heq]
  unfold afterLoop
  have hsubE : c.sub.isEmpty = false := by
    cases hcs : c.sub with
    | nil => exact absurd hcs hsub
    | cons x xs => simp
  have hargE : c.arguments.isEmpty = false := by
    cases hca : c.arguments with
    | nil => exact absurd hca harg
    | cons x xs => simp
  rw [hsubE]
  simp [hargE]

/-- C3 witness: the amended statement applied to the invariant-breaking
node reached by the path `["bad"]`. -/
theorem c3_branch_arguments_witness :
    resolvePath c3Demo ["bad"] = Except.error "parent item cannot have arguments" :=
  c3_branch_arguments_amended c3Demo ["bad"] c3DemoCmd rfl
    (by simp [c3DemoCmd, Command.sub])
    (by simp [c3DemoCmd, Command.arguments]) (by simp) (by simp)

/-! Helper lemmas for C4: on space-free characters the per-string
scanner of the code and the joined-string scanner of the spec perform
the same transitions. -/

/-- Scanning space-free characters, the spec scanner performs exactly
the code scanner's transitions and continues on the remainder. -/
theorem tokenizeSpecChars_append (cs : List Char) :
    ∀ (rest : List Char) (na : List String) (q e : Bool),
    (∀ c ∈ cs, c ≠ ' ') →
    tokenizeSpecChars (cs ++ rest) na q e =
      tokenizeSpecChars rest (parseArgsChars cs na q e).1
        (parseArgsChars cs na q e).2.1 (parseArgsChars cs na q e).2.2 := by
  induction cs with
  | nil =>
    intro rest na q e _
    rfl
  | cons c cs ih =>
    intro rest na q e hns
    have hcsp : ∀ x ∈ cs, x ≠ ' ' := fun x hx => hns x (List.mem_cons_of_mem _ hx)
    have hc : c ≠ ' ' := hns c (List.mem_cons_self _ _)
    by_cases h1 : c = '\\'
    · subst h1
      cases e
      · exact ih rest na q true hcsp
      · exact ih rest (appendToLast na "\\") q false hcsp
    · by_cases h2 : c = '"'
      · subst h2
        cases e
        · exact ih rest na (!q) false hcsp
        · exact ih rest (appendToLast na "\"") q false hcsp
      · have e1 : (c == '\\') = false := by simpa using h1
        have e2 : (c == '"') = false := by simpa using h2
        have e3 : (c == ' ') = false := by simpa using hc
        simp only [List.cons_append, tokenizeSpecChars, parseArgsChars, e1, e2, e3,
          Bool.false_eq_true, if_false]
        exact ih rest (appendToLast na (String.singleton c)) q false hcsp

/-- The character list of a space-join with a non-empty tail. -/
theorem joinSpace_data_cons {t : String} {ts : List String} (h : ts ≠ []) :
    (joinSpace (t :: ts)).data = t.data ++ ' ' :: (joinSpace ts).data := by
  cases ts with
  | nil => exact absurd rfl h
  | cons b u =>
    show (t ++ " " ++ joinSpace (b :: u)).data = _
    simp [String.data_append]

/-- The outer loop of `parseArgs` agrees with the spec scanner over the
joined string, for non-empty space-free input strings; the state fed to
the spec scanner is the state after the loop's between-strings step. -/
theorem parseArgsLoop_eq_spec (ts : List String) :
    ∀ (na : List String) (q e : Bool),
    ts ≠ [] → (∀ t ∈ ts, t ≠ "" ∧ ∀ c ∈ t.data, c ≠ ' ') →
    parseArgsLoop ts na q e =
      tokenizeSpecChars (joinSpace ts).data
        (if q || e then appendToLast na " " else na ++ [""])
        q (if q || e then false else e) := by
  induction ts with
  | nil => intro na q e hne _; exact absurd rfl hne
  | cons t ts ih =>
    intro na q e _ hok
    obtain ⟨hne, hnsp⟩ := hok t (List.mem_cons_self _ _)
    have ht : (t == "") = false := by simpa using hne
    simp only [parseArgsLoop, ht, Bool.false_eq_true, if_false]
    cases ts with
    | nil =>
      have hA := tokenizeSpecChars_append t.data []
        (if q || e then appendToLast na " " else na ++ [""]) q
        (if q || e then false else e) hnsp
      rw [List.append_nil] at hA
      have hj : joinSpace [t] = t := rfl
      rw [hj, hA]
      generalize parseArgsChars t.data
        (if q || e then appendToLast na " " else na ++ [""]) q
        (if q || e then false else e) = X
      obtain ⟨na1, q1, e1⟩ := X
      rfl
    | cons t2 ts2 =>
      have hok' : ∀ x ∈ t2 :: ts2, x ≠ "" ∧ ∀ c ∈ x.data, c ≠ ' ' :=
        fun x hx => hok x (List.mem_cons_of_mem _ hx)
      rw [joinSpace_data_cons (by simp)]
      have hA := tokenizeSpecChars_append t.data (' ' :: (joinSpace (t2 :: ts2)).data)
        (if q || e then appendToLast na " " else na ++ [""]) q
        (if q || e then false else e) hnsp
      rw [hA]
      generalize parseArgsChars t.data
        (if q || e then appendToLast na " " else na ++ [""]) q
        (if q || e then false else e) = X
      obtain ⟨na1, q1, e1⟩ := X
      show parseArgsLoop (t2 :: ts2) na1 q1 e1 =
        tokenizeSpecChars (' ' :: (joinSpace (t2 :: ts2)).data) na1 q1 e1
      rw [ih na1 q1 e1 (by simp) hok']
      show _ = (if (q1 || e1) = true then
          tokenizeSpecChars (joinSpace (t2 :: ts2)).data (appendToLast na1 " ") q1 false
        else tokenizeSpecChars (joinSpace (t2 :: ts2)).data (na1 ++ [""]) q1 e1)
      by_cases hqe : (q1 || e1) = true
      · simp only [hqe, if_true]
      · have hqe' : (q1 || e1) = false := by simpa using hqe
        simp only [hqe', Bool.false_eq_true, if_false]

/-- C4 (amended): the per-string scanner of `parseArgs` coincides with
the spec's join-then-scan model on inputs whose strings are non-empty
and free of raw space characters (an unquoted, unescaped space inside
one input string stays literal in the code but splits tokens in the
model, and empty strings are skipped by the code); the concrete
contract examples hold: `parseArgs [] = []` and
`parseArgs ["a", "\"b c\"", "d\\ e"] = ["a", "b c", "d e"]`. -/
theorem c4_tokenizer_amended :
    (∀ args : List String, (∀ s ∈ args, s ≠ "" ∧ ∀ c ∈ s.data, c ≠ ' ') →
      parseArgs args = tokenizeSpec args) ∧
    parseArgs [] = [] ∧
    parseArgs ["a", "\"b c\"", "d\\ e"] = ["a", "b c", "d e"] := by
  refine ⟨?_, rfl, by decide⟩
  intro args hok
  cases args with
  | nil => rfl
  | cons t ts =>
    show parseArgsLoop (t :: ts) [] false false = tokenizeSpecChars (joinSpace (t :: ts)).data [""] false false
    rw [parseArgsLoop_eq_spec (t :: ts) [] false false (by simp) hok]
    rfl

/-- C4 witness: the restricted equivalence applied to a concrete
space-free input. -/
theorem c4_tokenizer_witness : parseArgs ["ab", "\"c\""] = tokenizeSpec ["ab", "\"c\""] :=
  c4_tokenizer_amended.1 ["ab", "\"c\""] (by decide)

end GoCli
